import Mathlib

/-!
Shallow embedding of `qualifier.py` (box-drawing table renderer).

Cells are modelled by their stringified form: in Python every cell is
passed through `str(...)` before its length or text is used, so a cell
value is represented here directly as the `String` produced by that
stringification.  Assertion failures (Python `assert`) are modelled by
`Option`: a failing assertion yields `none`, a successful render yields
`some table`.
-/

set_option maxRecDepth 4000

namespace Qualifier

/-- `BORDER` dict from the source: position tag to
(left corner, junction, right corner). -/
def BORDER : List (String × (String × String × String)) :=
  [("top", ("┌", "┬", "┐")),
   ("header", ("├", "┼", "┤")),
   ("bottom", ("└", "┴", "┘"))]

/-- `VERTICAL = "│"`. -/
def VERTICAL : String := "│"

/-- Python `"─" * n` (the `HORIZONTAL` fill character repeated). -/
def hfill (n : Nat) : String := String.mk (List.replicate n '─')

/-- Python `" " * n`. -/
def spaces (n : Nat) : String := String.mk (List.replicate n ' ')

/-- Python `sep.join(l)`. -/
def joinSep (sep : String) : List String → String
  | [] => ""
  | [x] => x
  | x :: xs => x ++ sep ++ joinSep sep xs

/-- `make_horizontal_rule(column_widths, which)`: looks `which` up in
`BORDER` (a missing key — Python `KeyError` — is `none`) and builds
`borders[0] + borders[1].join(HORIZONTAL * (w + 2) for w in column_widths) + borders[2]`. -/
def make_horizontal_rule (column_widths : List Nat) (which : String) : Option String :=
  (BORDER.lookup which).map fun borders =>
    borders.1
      ++ joinSep borders.2.1
        (column_widths.map fun column_width => hfill (column_width + 2))
      ++ borders.2.2

/-- `pad_column(column_object, column_width, centered)`.  `pad` is Python
int arithmetic, so it lives in `Int` (it can be negative for oversized
cells; Python `" " * pad` is then empty, modelled by `Int.toNat`).
Python `pad // 2` is floor division (`Int.fdiv`) and `math.ceil(pad / 2)`
is the exact ceiling `-((-pad) // 2)`. -/
def pad_column (column_object : String) (column_width : Nat) (centered : Bool) : String :=
  let column_text := " " ++ column_object ++ " "
  let pad : Int := (column_width : Int) + 2 - (column_text.length : Int)
  if !centered then
    column_text ++ spaces pad.toNat
  else
    let left_pad : Int := Int.fdiv pad 2
    let right_pad : Int := -(Int.fdiv (-pad) 2)
    spaces left_pad.toNat ++ column_text ++ spaces right_pad.toNat

/-- `process_row(row, column_widths, centered)`: vertical bar, the padded
cells joined by vertical bars (Python `zip` truncates to the shorter
list, as `List.zipWith` does), vertical bar. -/
def process_row (row : List String) (column_widths : List Nat) (centered : Bool) : String :=
  VERTICAL
    ++ joinSep VERTICAL
      (List.zipWith (fun col column_width => pad_column col column_width centered)
        row column_widths)
    ++ VERTICAL

/-- The width-computation loop of `make_table` (lines 43-47):
`cols = list(zip(*rows))` transposes the rows, and for each `i < n_cols`
`column_widths[i] = max(len_label, *(len(str(obj)) for obj in cols[i]))`.
`cols[i]` is the list of the rows' `i`-th entries; it is only evaluated
after the uniform-length assertion, where every row has length `n_cols`,
so for `i < n_cols` the `getD` default is never used. -/
def columnWidths (rows : List (List String)) (labels : List String) (n_cols : Nat) :
    List Nat :=
  (List.range n_cols).map fun i =>
    let len_label := if labels.isEmpty then 0 else (labels.getD i "").length
    ((rows.map fun row => row.getD i "").map String.length).foldl max len_label

/-- `make_table(rows, labels=None, centered=False)`.

* `assert len(set(len(row) for row in rows)) == 1` is the guard on
  `(rows.map List.length).dedup.length = 1`; Python's walrus leaves
  `n_cols` bound to the length of the **last** row (`getLast?`).
* `if labels := labels or []:` replaces `None` by `[]` and runs the
  `assert n_cols == len(labels)` only when the result is non-empty.
* The final list of lines is top rule, then (if labels non-empty) the label
  row and the header rule, then one line per data row, then the bottom
  rule, joined with `"\n"`. -/
def make_table (rows : List (List String)) (labels : Option (List String) := none)
    (centered : Bool := false) : Option String := do
  guard ((rows.map List.length).dedup.length = 1)
  let n_cols ← (rows.map List.length).getLast?
  let labelsL := labels.getD []
  if !labelsL.isEmpty then
    guard (n_cols = labelsL.length)
  let column_widths := columnWidths rows labelsL n_cols
  let top ← make_horizontal_rule column_widths "top"
  let headerLines ←
    if labelsL.isEmpty then
      pure []
    else do
      let header ← make_horizontal_rule column_widths "header"
      pure [process_row labelsL column_widths centered, header]
  let bottom ← make_horizontal_rule column_widths "bottom"
  pure (joinSep "\n"
    ([top]
      ++ headerLines
      ++ rows.map (fun row => process_row row column_widths centered)
      ++ [bottom]))

/-- Valid input in the sense of the specification's shape preconditions:
at least one row, every row of length `n`, and a label list, when present
and non-empty, also of length `n`.  (An empty label list is the source's
encoding of "no labels".) -/
def ValidInput (rows : List (List String)) (labels : Option (List String)) (n : Nat) :
    Prop :=
  rows ≠ [] ∧ (∀ r ∈ rows, r.length = n) ∧
    (∀ ls, labels = some ls → ls ≠ [] → ls.length = n)

/-- Two rows of unequal length. -/
def Ragged (rows : List (List String)) : Prop :=
  ∃ r1 ∈ rows, ∃ r2 ∈ rows, r1.length ≠ r2.length

/-! ### Helper lemmas -/

theorem foldl_max_init_le (l : List Nat) (a : Nat) : a ≤ l.foldl max a := by
  induction l generalizing a with
  | nil => exact Nat.le_refl a
  | cons x xs ih => exact Nat.le_trans (Nat.le_max_left a x) (ih (max a x))

theorem foldl_max_le_of_mem {b : Nat} {l : List Nat} (h : b ∈ l) (a : Nat) :
    b ≤ l.foldl max a := by
  induction l generalizing a with
  | nil => cases h
  | cons x xs ih =>
    rcases List.mem_cons.mp h with rfl | hmem
    · exact Nat.le_trans (Nat.le_max_right a b) (foldl_max_init_le xs (max a b))
    · exact ih hmem (max a x)

theorem foldl_max_attained (l : List Nat) (a : Nat) :
    l.foldl max a = a ∨ l.foldl max a ∈ l := by
  induction l generalizing a with
  | nil => exact Or.inl rfl
  | cons x xs ih =>
    rcases ih (max a x) with h | h
    · rcases max_choice a x with hm | hm
      · exact Or.inl (by rw [List.foldl_cons, h, hm])
      · exact Or.inr (by rw [List.foldl_cons, h, hm]; exact List.mem_cons_self x xs)
    · exact Or.inr (List.mem_cons_of_mem x h)

theorem dedup_eq_single {l : List Nat} {n : Nat} (hne : l ≠ [])
    (h : ∀ x ∈ l, x = n) : l.dedup = [n] := by
  induction l with
  | nil => exact absurd rfl hne
  | cons a t ih =>
    have ha : a = n := h a (List.mem_cons_self a t)
    cases t with
    | nil => simp [ha]
    | cons b t2 =>
      have hb : b = n := h b (List.mem_cons_of_mem a (List.mem_cons_self b t2))
      have hmem : a ∈ b :: t2 := by rw [ha, hb]; exact List.mem_cons_self n t2
      rw [List.dedup_cons_of_mem hmem]
      exact ih (List.cons_ne_nil b t2) fun x hx => h x (List.mem_cons_of_mem a hx)

theorem all_eq_of_dedup_length_one {l : List Nat} (h : l.dedup.length = 1) :
    ∀ a ∈ l, ∀ b ∈ l, a = b := by
  obtain ⟨x, hx⟩ := List.length_eq_one.mp h
  intro a ha b hb
  have ha2 : a ∈ l.dedup := List.mem_dedup.mpr ha
  have hb2 : b ∈ l.dedup := List.mem_dedup.mpr hb
  rw [hx] at ha2 hb2
  rw [List.mem_singleton.mp ha2, List.mem_singleton.mp hb2]

theorem getLast?_eq_some_of_all_eq {l : List Nat} {n : Nat} (hne : l ≠ [])
    (h : ∀ x ∈ l, x = n) : l.getLast? = some n := by
  induction l with
  | nil => exact absurd rfl hne
  | cons a t ih =>
    cases t with
    | nil => simp [List.getLast?, h a (List.mem_cons_self a [])]
    | cons b t2 =>
      rw [List.getLast?_cons_cons]
      exact ih (List.cons_ne_nil b t2) fun x hx => h x (List.mem_cons_of_mem a hx)

@[simp] theorem spaces_length (n : Nat) : (spaces n).length = n := by
  simp [spaces]

@[simp] theorem hfill_length (n : Nat) : (hfill n).length = n := by
  simp [hfill]

theorem joinSep_length (sep : String) (l : List String) :
    (joinSep sep l).length = (l.map String.length).sum + sep.length * (l.length - 1) := by
  induction l with
  | nil => simp [joinSep]
  | cons x xs ih =>
    cases xs with
    | nil => simp [joinSep]
    | cons y ys =>
      show (x ++ sep ++ joinSep sep (y :: ys)).length = _
      rw [String.length_append, String.length_append, ih]
      simp only [List.map_cons, List.sum_cons, List.length_cons, Nat.add_sub_cancel,
        Nat.mul_succ, Nat.mul_add, Nat.mul_one]
      omega

/-- Lines 63-64 of the source: the wrapped cell text has length
`len(str(obj)) + 2`. -/
theorem column_text_length (c : String) : (" " ++ c ++ " ").length = c.length + 2 := by
  rw [String.length_append, String.length_append]
  have h1 : (" " : String).length = 1 := rfl
  rw [h1]
  omega

/-- Unfolding `pad_column` in left-justified mode. -/
theorem pad_column_false_eq (c : String) (w : Nat) :
    pad_column c w false =
      (" " ++ c ++ " ") ++
        spaces ((w : Int) + 2 - (((" " ++ c ++ " ").length : Nat) : Int)).toNat := rfl

/-- Unfolding `pad_column` in centered mode. -/
theorem pad_column_true_eq (c : String) (w : Nat) :
    pad_column c w true =
      spaces (Int.fdiv ((w : Int) + 2 - (((" " ++ c ++ " ").length : Nat) : Int)) 2).toNat
        ++ (" " ++ c ++ " ")
        ++ spaces (-(Int.fdiv (-((w : Int) + 2 - (((" " ++ c ++ " ").length : Nat) : Int))) 2)).toNat := rfl

/-- For a cell that is not wider than the column, the padded cell occupies
exactly `column_width + 2` characters, in both justification modes. -/
theorem pad_column_length (c : String) (w : Nat) (cent : Bool) (h : c.length ≤ w) :
    (pad_column c w cent).length = w + 2 := by
  have hct := column_text_length c
  cases cent with
  | false =>
    rw [pad_column_false_eq, String.length_append, hct, spaces_length]
    omega
  | true =>
    rw [pad_column_true_eq, String.length_append, String.length_append, hct,
      spaces_length, spaces_length,
      Int.fdiv_eq_ediv _ (by norm_num : (0 : Int) ≤ 2),
      Int.fdiv_eq_ediv _ (by norm_num : (0 : Int) ≤ 2)]
    omega

/-- Entry `i` of the width list is the `max(len_label, *...)` of line 47. -/
theorem columnWidths_getD (rows : List (List String)) (ls : List String) (n i : Nat)
    (hi : i < n) :
    (columnWidths rows ls n).getD i 0 =
      ((rows.map fun row => row.getD i "").map String.length).foldl max
        (if ls.isEmpty then 0 else (ls.getD i "").length) := by
  simp [columnWidths, List.getD_eq_getElem?_getD, List.getElem?_map, List.getElem?_range, hi]

/-- Column widths dominate every cell of the column (line 47 takes a max
over the whole transposed column). -/
theorem columnWidths_ge_cell (rows : List (List String)) (ls : List String) (n : Nat)
    {row : List String} (hrow : row ∈ rows) (i : Nat) (hi : i < n) :
    (row.getD i "").length ≤ (columnWidths rows ls n).getD i 0 := by
  rw [columnWidths_getD rows ls n i hi]
  exact foldl_max_le_of_mem
    (List.mem_map_of_mem String.length
      (List.mem_map_of_mem (fun row => row.getD i "") hrow)) _

/-- Column widths dominate the label of the column when labels are present. -/
theorem columnWidths_ge_label (rows : List (List String)) {ls : List String} (n : Nat)
    (hls : ls ≠ []) (i : Nat) (hi : i < n) :
    (ls.getD i "").length ≤ (columnWidths rows ls n).getD i 0 := by
  rw [columnWidths_getD rows ls n i hi]
  have : ls.isEmpty = false := by simpa [List.isEmpty_iff]
  rw [this]
  exact foldl_max_init_le _ _

/-- The max in line 47 is attained: by some cell of the column, or by the
label when labels are present. -/
theorem columnWidths_attained (rows : List (List String)) (ls : List String) (n : Nat)
    (hne : rows ≠ []) (i : Nat) (hi : i < n) :
    (∃ row ∈ rows, (row.getD i "").length = (columnWidths rows ls n).getD i 0) ∨
      (ls ≠ [] ∧ (ls.getD i "").length = (columnWidths rows ls n).getD i 0) := by
  rw [columnWidths_getD rows ls n i hi]
  rcases foldl_max_attained ((rows.map fun row => row.getD i "").map String.length)
      (if ls.isEmpty then 0 else (ls.getD i "").length) with h | h
  · by_cases hls : ls.isEmpty
    · left
      obtain ⟨row0, hrow0⟩ := List.exists_mem_of_ne_nil rows hne
      refine ⟨row0, hrow0, Nat.le_antisymm ?_ ?_⟩
      · exact foldl_max_le_of_mem
          (List.mem_map_of_mem String.length
            (List.mem_map_of_mem (fun row => row.getD i "") hrow0)) _
      · rw [h, if_pos hls]; exact Nat.zero_le _
    · right
      refine ⟨by simpa [List.isEmpty_iff] using hls, ?_⟩
      rw [h, if_neg hls]
  · left
    obtain ⟨s, hs, hlen⟩ := List.mem_map.mp h
    obtain ⟨row, hrow, hcell⟩ := List.mem_map.mp hs
    exact ⟨row, hrow, by rw [hcell, hlen]⟩

/-- `make_horizontal_rule` at the `"top"` key. -/
theorem make_horizontal_rule_top (W : List Nat) :
    make_horizontal_rule W "top" =
      some ("┌" ++ joinSep "┬" (W.map fun w => hfill (w + 2)) ++ "┐") := rfl

/-- `make_horizontal_rule` at the `"header"` key. -/
theorem make_horizontal_rule_header (W : List Nat) :
    make_horizontal_rule W "header" =
      some ("├" ++ joinSep "┼" (W.map fun w => hfill (w + 2)) ++ "┤") := rfl

/-- `make_horizontal_rule` at the `"bottom"` key. -/
theorem make_horizontal_rule_bottom (W : List Nat) :
    make_horizontal_rule W "bottom" =
      some ("└" ++ joinSep "┴" (W.map fun w => hfill (w + 2)) ++ "┘") := rfl

/-- Central evaluation lemma: on shape-valid input, every assertion in
`make_table` passes and the result is exactly the joined line list of
lines 50-56: top rule, then (when labels are present and non-empty) the
label row and the header rule, then one line per data row, then the
bottom rule. -/
theorem make_table_eq_of_valid (rows : List (List String)) (labels : Option (List String))
    (c : Bool) (n : Nat) (h : ValidInput rows labels n) :
    make_table rows labels c =
      some (joinSep "\n"
        (["┌" ++ joinSep "┬"
              ((columnWidths rows (labels.getD []) n).map fun w => hfill (w + 2)) ++ "┐"]
          ++ (if (labels.getD []).isEmpty then []
              else
                [process_row (labels.getD []) (columnWidths rows (labels.getD []) n) c,
                 "├" ++ joinSep "┼"
                    ((columnWidths rows (labels.getD []) n).map fun w => hfill (w + 2)) ++ "┤"])
          ++ rows.map (fun row => process_row row (columnWidths rows (labels.getD []) n) c)
          ++ ["└" ++ joinSep "┴"
                ((columnWidths rows (labels.getD []) n).map fun w => hfill (w + 2)) ++ "┘"])) := by
  obtain ⟨hne, hlen, hlab⟩ := h
  have hall : ∀ x ∈ rows.map List.length, x = n := by
    intro x hx; obtain ⟨r, hr, rfl⟩ := List.mem_map.mp hx; exact hlen r hr
  have hmapne : rows.map List.length ≠ [] := by simpa using hne
  have hdedup : (rows.map List.length).dedup = [n] := dedup_eq_single hmapne hall
  have hlast : (rows.map List.length).getLast? = some n :=
    getLast?_eq_some_of_all_eq hmapne hall
  cases hl : (labels.getD []).isEmpty with
  | true =>
    simp [make_table, hdedup, hlast, hl, make_horizontal_rule_top,
      make_horizontal_rule_header, make_horizontal_rule_bottom, guard]
  | false =>
    have hlablen : n = (labels.getD []).length := by
      cases labels with
      | none => simp at hl
      | some ls =>
        exact (hlab ls rfl (by simpa [List.isEmpty_iff] using hl)).symm
    simp [make_table, hdedup, hlast, hl, hlablen, make_horizontal_rule_top,
      make_horizontal_rule_header, make_horizontal_rule_bottom, guard]

/-- C1: for every valid input, the (padding-inclusive) width of column
`i` — in code terms `column_widths[i] + 2`, since the source stores widths
excluding padding and adds 2 at every use site — is at least
`len(str(cell)) + 2` for the label of column `i` (when labels are present)
and for every data cell of column `i`, and that bound is attained by some
entry of the column (a data cell or the label, the label being the
distinguished header cell of the column).  Together these say the width
equals the maximum stringified length over the column plus 2. -/
theorem C1_column_width_bound_attained (rows : List (List String))
    (labels : Option (List String)) (n : Nat) (h : ValidInput rows labels n)
    (i : Nat) (hi : i < n) :
    (∀ row ∈ rows,
        (row.getD i "").length + 2 ≤ (columnWidths rows (labels.getD []) n).getD i 0 + 2) ∧
    (∀ ls, labels = some ls → ls ≠ [] →
        (ls.getD i "").length + 2 ≤ (columnWidths rows (labels.getD []) n).getD i 0 + 2) ∧
    ((∃ row ∈ rows,
        (row.getD i "").length + 2 = (columnWidths rows (labels.getD []) n).getD i 0 + 2) ∨
      (∃ ls, labels = some ls ∧ ls ≠ [] ∧
        (ls.getD i "").length + 2 = (columnWidths rows (labels.getD []) n).getD i 0 + 2)) := by
  obtain ⟨hne, hlen, hlab⟩ := h
  refine ⟨?_, ?_, ?_⟩
  · intro row hrow
    exact Nat.add_le_add_right (columnWidths_ge_cell rows (labels.getD []) n hrow i hi) 2
  · intro ls hls hlsne
    have : labels.getD [] = ls := by rw [hls]; rfl
    rw [this]
    exact Nat.add_le_add_right (columnWidths_ge_label rows n (this ▸ hlsne) i hi) 2
  · rcases columnWidths_attained rows (labels.getD []) n hne i hi with ⟨row, hrow, heq⟩ | ⟨hlsne, heq⟩
    · exact Or.inl ⟨row, hrow, by rw [heq]⟩
    · cases hls : labels with
      | none => rw [hls] at hlsne; exact absurd rfl hlsne
      | some ls =>
        refine Or.inr ⟨ls, rfl, ?_, ?_⟩
        · rw [hls] at hlsne; simpa using hlsne
        · rw [hls] at heq; simp only [Option.getD_some] at heq; rw [heq]; rfl

/-- C2: on valid input the table is exactly the newline-join of: top
rule; then — only when a non-empty label list is supplied — the label row
followed by the header rule; then one line per data row in input order;
then the bottom rule.  With no labels the table is top rule, data rows,
bottom rule only. -/
theorem C2_line_order (rows : List (List String)) (labels : Option (List String))
    (c : Bool) (n : Nat) (h : ValidInput rows labels n) :
    (∀ ls, labels = some ls → ls ≠ [] →
      make_table rows labels c =
        some (joinSep "\n"
          (["┌" ++ joinSep "┬" ((columnWidths rows ls n).map fun w => hfill (w + 2)) ++ "┐"]
            ++ [process_row ls (columnWidths rows ls n) c]
            ++ ["├" ++ joinSep "┼" ((columnWidths rows ls n).map fun w => hfill (w + 2)) ++ "┤"]
            ++ rows.map (fun row => process_row row (columnWidths rows ls n) c)
            ++ ["└" ++ joinSep "┴" ((columnWidths rows ls n).map fun w => hfill (w + 2)) ++ "┘"]))) ∧
    (labels = none →
      make_table rows labels c =
        some (joinSep "\n"
          (["┌" ++ joinSep "┬" ((columnWidths rows [] n).map fun w => hfill (w + 2)) ++ "┐"]
            ++ rows.map (fun row => process_row row (columnWidths rows [] n) c)
            ++ ["└" ++ joinSep "┴" ((columnWidths rows [] n).map fun w => hfill (w + 2)) ++ "┘"]))) := by
  have hmain := make_table_eq_of_valid rows labels c n h
  constructor
  · intro ls hls hlsne
    subst hls
    have hgetD : (some ls).getD [] = ls := rfl
    rw [hgetD] at hmain
    have hemp : ls.isEmpty = false := by simpa [List.isEmpty_iff]
    rw [hemp] at hmain
    simpa using hmain
  · intro hls
    subst hls
    simpa using hmain

/-- C4: for every width list and each of the three position tags the rule
builder succeeds and returns left corner, the per-column fill segments
(`'─'` repeated `w + 2` times, the padding-inclusive column width) joined
by the junction glyph, then the right corner; with glyph triples
`┌ ┬ ┐` (top), `├ ┼ ┤` (header), `└ ┴ ┘` (bottom). -/
theorem C4_rule_glyphs (W : List Nat) :
    make_horizontal_rule W "top" =
      some ("┌" ++ joinSep "┬" (W.map fun w => hfill (w + 2)) ++ "┐") ∧
    make_horizontal_rule W "header" =
      some ("├" ++ joinSep "┼" (W.map fun w => hfill (w + 2)) ++ "┤") ∧
    make_horizontal_rule W "bottom" =
      some ("└" ++ joinSep "┴" (W.map fun w => hfill (w + 2)) ++ "┘") :=
  ⟨rfl, rfl, rfl⟩

/-- C5: in centered mode, writing `pad = w - len(cell)` for the extra
fill beyond the one-space-per-side padding, the cell renders as
`floor(pad/2)` spaces, the space-wrapped text, then `ceil(pad/2)` spaces
(`pad - pad / 2` in `Nat`); the two sides differ by at most one and the
right side is strictly larger exactly when `pad` is odd. -/
theorem C5_centered_split (c : String) (w : Nat) (h : c.length ≤ w) :
    pad_column c w true =
      spaces ((w - c.length) / 2) ++ (" " ++ c ++ " ") ++
        spaces ((w - c.length) - (w - c.length) / 2) ∧
    ((w - c.length) - (w - c.length) / 2) - (w - c.length) / 2 ≤ 1 ∧
    ((w - c.length) / 2 < (w - c.length) - (w - c.length) / 2 ↔ (w - c.length) % 2 = 1) := by
  have hct := column_text_length c
  have hleft : (Int.fdiv ((w : Int) + 2 - (((" " ++ c ++ " ").length : Nat) : Int)) 2).toNat
      = (w - c.length) / 2 := by
    rw [hct, Int.fdiv_eq_ediv _ (by norm_num : (0 : Int) ≤ 2)]
    omega
  have hright : (-(Int.fdiv (-((w : Int) + 2 - (((" " ++ c ++ " ").length : Nat) : Int))) 2)).toNat
      = (w - c.length) - (w - c.length) / 2 := by
    rw [hct, Int.fdiv_eq_ediv _ (by norm_num : (0 : Int) ≤ 2)]
    omega
  refine ⟨?_, by omega, by omega⟩
  rw [pad_column_true_eq, hleft, hright]

/-- String append concatenates the underlying character lists. -/
theorem data_append (a b : String) : (a ++ b).data = a.data ++ b.data := rfl

@[simp] theorem spaces_data (n : Nat) : (spaces n).data = List.replicate n ' ' := rfl

@[simp] theorem hfill_data (n : Nat) : (hfill n).data = List.replicate n '─' := rfl

/-- The number of columns equals the length of the width list. -/
theorem columnWidths_length (rows : List (List String)) (ls : List String) (n : Nat) :
    (columnWidths rows ls n).length = n := by
  simp [columnWidths]

/-- A character of a joined string comes from the separator or from one
of the joined pieces. -/
theorem mem_data_joinSep {ch : Char} {sep : String} {l : List String}
    (h : ch ∈ (joinSep sep l).data) :
    ch ∈ sep.data ∨ ∃ s ∈ l, ch ∈ s.data := by
  induction l with
  | nil => simp [joinSep] at h
  | cons x xs ih =>
    cases xs with
    | nil => exact Or.inr ⟨x, List.mem_cons_self x [], h⟩
    | cons y ys =>
      rw [show joinSep sep (x :: y :: ys) = x ++ sep ++ joinSep sep (y :: ys) from rfl,
        data_append, data_append] at h
      rcases List.mem_append.mp h with h1 | h2
      · rcases List.mem_append.mp h1 with hx | hsep
        · exact Or.inr ⟨x, List.mem_cons_self x (y :: ys), hx⟩
        · exact Or.inl hsep
      · rcases ih h2 with hsep | ⟨s, hs, hm⟩
        · exact Or.inl hsep
        · exact Or.inr ⟨s, List.mem_cons_of_mem x hs, hm⟩

/-- Elements of a `zipWith` come from corresponding inputs. -/
theorem of_mem_zipWith {f : String → Nat → String} {x : String} :
    ∀ (l1 : List String) (l2 : List Nat), x ∈ List.zipWith f l1 l2 →
      ∃ a ∈ l1, ∃ b ∈ l2, x = f a b := by
  intro l1
  induction l1 with
  | nil => intro l2 h; simp at h
  | cons a t ih =>
    intro l2 h
    cases l2 with
    | nil => simp at h
    | cons b t2 =>
      rw [List.zipWith_cons_cons] at h
      rcases List.mem_cons.mp h with rfl | h2
      · exact ⟨a, List.mem_cons_self a t, b, List.mem_cons_self b t2, rfl⟩
      · obtain ⟨a2, ha2, b2, hb2, rfl⟩ := ih t2 h2
        exact ⟨a2, List.mem_cons_of_mem a ha2, b2, List.mem_cons_of_mem b hb2, rfl⟩

/-- A character of a padded cell is a space or a character of the cell. -/
theorem mem_data_pad_column {ch : Char} (s : String) (w : Nat) (cent : Bool)
    (h : ch ∈ (pad_column s w cent).data) : ch = ' ' ∨ ch ∈ s.data := by
  have hsp : (" " : String).data = [' '] := rfl
  cases cent with
  | false =>
    rw [pad_column_false_eq] at h
    simp only [data_append, spaces_data, hsp] at h
    rcases List.mem_append.mp h with h1 | h2
    · rcases List.mem_append.mp h1 with h3 | h4
      · rcases List.mem_append.mp h3 with h5 | h6
        · exact Or.inl (List.mem_singleton.mp h5)
        · exact Or.inr h6
      · exact Or.inl (List.mem_singleton.mp h4)
    · exact Or.inl (List.eq_of_mem_replicate h2)
  | true =>
    rw [pad_column_true_eq] at h
    simp only [data_append, spaces_data, hsp] at h
    rcases List.mem_append.mp h with h1 | h2
    · rcases List.mem_append.mp h1 with h3 | h4
      · exact Or.inl (List.eq_of_mem_replicate h3)
      · rcases List.mem_append.mp h4 with h5 | h6
        · rcases List.mem_append.mp h5 with h7 | h8
          · exact Or.inl (List.mem_singleton.mp h7)
          · exact Or.inr h8
        · exact Or.inl (List.mem_singleton.mp h6)
    · exact Or.inl (List.eq_of_mem_replicate h2)

/-- A character of a rendered row line is a vertical bar, a space, or a
character of one of the row's cells. -/
theorem mem_data_process_row {ch : Char} (row : List String) (W : List Nat) (c : Bool)
    (h : ch ∈ (process_row row W c).data) :
    ch = '│' ∨ ch = ' ' ∨ ∃ s ∈ row, ch ∈ s.data := by
  have hv : (VERTICAL : String).data = ['│'] := rfl
  rw [process_row, data_append, data_append] at h
  rcases List.mem_append.mp h with h1 | h2
  · rcases List.mem_append.mp h1 with h3 | h4
    · exact Or.inl (List.mem_singleton.mp (hv ▸ h3))
    · rcases mem_data_joinSep h4 with h5 | ⟨s, hs, hm⟩
      · exact Or.inl (List.mem_singleton.mp (hv ▸ h5))
      · obtain ⟨a, ha, b, hb, rfl⟩ := of_mem_zipWith row W hs
        rcases mem_data_pad_column a b c hm with hsp | hmem
        · exact Or.inr (Or.inl hsp)
        · exact Or.inr (Or.inr ⟨a, ha, hmem⟩)
  · exact Or.inl (List.mem_singleton.mp (hv ▸ h2))

/-- A horizontal rule whose corner and junction glyphs are not line
breaks contains no line break. -/
theorem rule_no_newline (lc j rc : String) (W : List Nat)
    (hl : '\n' ∉ lc.data) (hj : '\n' ∉ j.data) (hr : '\n' ∉ rc.data) :
    '\n' ∉ (lc ++ joinSep j (W.map fun w => hfill (w + 2)) ++ rc).data := by
  intro h
  rw [data_append, data_append] at h
  rcases List.mem_append.mp h with h1 | h2
  · rcases List.mem_append.mp h1 with h3 | h4
    · exact hl h3
    · rcases mem_data_joinSep h4 with h5 | ⟨s, hs, hm⟩
      · exact hj h5
      · obtain ⟨w, _, rfl⟩ := List.mem_map.mp hs
        have := List.eq_of_mem_replicate (hfill_data (w + 2) ▸ hm)
        simp at this
  · exact hr h2

/-- Under the per-column bound, the padded cells of a row have lengths
exactly `width + 2`, columnwise. -/
theorem zipWith_pad_map_length (c : Bool) :
    ∀ (row : List String) (W : List Nat),
      (∀ i, i < W.length → (row.getD i "").length ≤ W.getD i 0) →
      row.length = W.length →
      (List.zipWith (fun s w => pad_column s w c) row W).map String.length =
        W.map (fun w => w + 2) := by
  intro row
  induction row with
  | nil =>
    intro W _ hlen
    have : W = [] := by cases W with | nil => rfl | cons b t => simp at hlen
    subst this; rfl
  | cons a t ih =>
    intro W hb hlen
    cases W with
    | nil => simp at hlen
    | cons w ws =>
      rw [List.zipWith_cons_cons, List.map_cons, List.map_cons]
      have hhead : a.length ≤ w := by
        have := hb 0 (by simp)
        simpa using this
      rw [pad_column_length a w c hhead]
      have htail := ih ws (fun i hi => by
        have := hb (i + 1) (by simpa using Nat.succ_lt_succ hi)
        simpa using this) (by simpa using hlen)
      rw [htail]

/-- Length of a rendered row line: two border bars, `n - 1` separators,
and `width + 2` characters per column. -/
theorem process_row_length (row : List String) (W : List Nat) (c : Bool)
    (hlen : row.length = W.length)
    (hb : ∀ i, i < W.length → (row.getD i "").length ≤ W.getD i 0) :
    (process_row row W c).length =
      (W.map (fun w => w + 2)).sum + (W.length - 1) + 2 := by
  rw [process_row, String.length_append, String.length_append, joinSep_length,
    zipWith_pad_map_length c row W hb hlen]
  have hzl : (List.zipWith (fun s w => pad_column s w c) row W).length = W.length := by
    rw [List.length_zipWith, hlen, Nat.min_self]
  rw [hzl]
  have hv : (VERTICAL : String).length = 1 := rfl
  rw [hv]
  omega

/-- Length of a horizontal rule with one-character glyphs. -/
theorem rule_line_length (lc j rc : String) (W : List Nat)
    (hl : lc.length = 1) (hj : j.length = 1) (hr : rc.length = 1) :
    (lc ++ joinSep j (W.map fun w => hfill (w + 2)) ++ rc).length =
      (W.map (fun w => w + 2)).sum + (W.length - 1) + 2 := by
  rw [String.length_append, String.length_append, joinSep_length, hl, hj, hr]
  have hseg : ((W.map fun w => hfill (w + 2)).map String.length) =
      W.map (fun w => w + 2) := by
    rw [List.map_map]
    apply List.map_congr_left
    intro w _
    simp [Function.comp, hfill_length]
  rw [hseg, List.length_map]
  omega

/-- C3: rectangularity.  On valid input whose cells and labels are
single-line (no line break character, the spec's stringification
contract), the rendered table is the newline-join of a non-empty list of
lines, none of which contains a line break — so the list elements are
exactly the displayed lines — and all of which have the same character
length. -/
theorem C3_rectangularity (rows : List (List String)) (labels : Option (List String))
    (c : Bool) (n : Nat) (h : ValidInput rows labels n)
    (hsingle : ∀ row ∈ rows, ∀ s ∈ row, '\n' ∉ s.data)
    (hlsingle : ∀ ls, labels = some ls → ∀ s ∈ ls, '\n' ∉ s.data) :
    ∃ L, make_table rows labels c = some (joinSep "\n" L) ∧ L ≠ [] ∧
      (∀ l ∈ L, '\n' ∉ l.data) ∧
      (∀ l1 ∈ L, ∀ l2 ∈ L, l1.length = l2.length) := by
  obtain ⟨hne, hlen, hlab⟩ := h
  have hWlen : (columnWidths rows (labels.getD []) n).length = n :=
    columnWidths_length rows (labels.getD []) n
  have hlabmem : ∀ s ∈ labels.getD [], '\n' ∉ s.data := by
    cases labels with
    | none => intro s hs; simp at hs
    | some ls => exact hlsingle ls rfl
  have hlabrow : (labels.getD []).isEmpty = false → (labels.getD []).length = n := by
    intro hemp
    cases hlab2 : labels with
    | none => rw [hlab2] at hemp; simp at hemp
    | some ls =>
      rw [hlab2] at hemp
      have h2 : ls.isEmpty = false := by simpa using hemp
      have hlsne : ls ≠ [] := by simpa [List.isEmpty_iff] using h2
      simpa using hlab ls hlab2 hlsne
  have hrowlen : ∀ row ∈ rows,
      (process_row row (columnWidths rows (labels.getD []) n) c).length =
        ((columnWidths rows (labels.getD []) n).map (fun w => w + 2)).sum +
          ((columnWidths rows (labels.getD []) n).length - 1) + 2 := by
    intro row hrow
    refine process_row_length row _ c (by rw [hWlen]; exact hlen row hrow) ?_
    intro i hi
    exact columnWidths_ge_cell rows (labels.getD []) n hrow i (hWlen ▸ hi)
  have hrownl : ∀ row ∈ rows,
      '\n' ∉ (process_row row (columnWidths rows (labels.getD []) n) c).data := by
    intro row hrow hmem
    rcases mem_data_process_row row _ c hmem with h1 | h2 | ⟨s, hs, hm⟩
    · exact absurd h1 (by decide)
    · exact absurd h2 (by decide)
    · exact hsingle row hrow s hs hm
  refine ⟨_, make_table_eq_of_valid rows labels c n ⟨hne, hlen, hlab⟩, by simp, ?_, ?_⟩
  · intro l hl
    rcases List.mem_append.mp hl with hl1 | hbot
    · rcases List.mem_append.mp hl1 with hl2 | hdata
      · rcases List.mem_append.mp hl2 with htop | hmid
        · rw [List.mem_singleton.mp htop]
          exact rule_no_newline "┌" "┬" "┐" _ (by decide) (by decide) (by decide)
        · by_cases hemp : (labels.getD []).isEmpty
          · rw [if_pos hemp] at hmid; simp at hmid
          · rw [if_neg hemp] at hmid
            rcases List.mem_cons.mp hmid with rfl | hmid2
            · intro hmem
              rcases mem_data_process_row _ _ c hmem with h1 | h2 | ⟨s, hs, hm⟩
              · exact absurd h1 (by decide)
              · exact absurd h2 (by decide)
              · exact hlabmem s hs hm
            · rw [List.mem_singleton.mp hmid2]
              exact rule_no_newline "├" "┼" "┤" _ (by decide) (by decide) (by decide)
      · obtain ⟨row, hrow, rfl⟩ := List.mem_map.mp hdata
        exact hrownl row hrow
    · rw [List.mem_singleton.mp hbot]
      exact rule_no_newline "└" "┴" "┘" _ (by decide) (by decide) (by decide)
  · have hK : ∀ l ∈
        (["┌" ++ joinSep "┬"
            ((columnWidths rows (labels.getD []) n).map fun w => hfill (w + 2)) ++ "┐"]
          ++ (if (labels.getD []).isEmpty then []
              else
                [process_row (labels.getD []) (columnWidths rows (labels.getD []) n) c,
                 "├" ++ joinSep "┼"
                    ((columnWidths rows (labels.getD []) n).map fun w => hfill (w + 2)) ++ "┤"])
          ++ rows.map (fun row => process_row row (columnWidths rows (labels.getD []) n) c)
          ++ ["└" ++ joinSep "┴"
                ((columnWidths rows (labels.getD []) n).map fun w => hfill (w + 2)) ++ "┘"]),
        l.length =
          ((columnWidths rows (labels.getD []) n).map (fun w => w + 2)).sum +
            ((columnWidths rows (labels.getD []) n).length - 1) + 2 := by
      intro l hl
      rcases List.mem_append.mp hl with hl1 | hbot
      · rcases List.mem_append.mp hl1 with hl2 | hdata
        · rcases List.mem_append.mp hl2 with htop | hmid
          · rw [List.mem_singleton.mp htop]
            exact rule_line_length "┌" "┬" "┐" _ rfl rfl rfl
          · by_cases hemp : (labels.getD []).isEmpty
            · rw [if_pos hemp] at hmid; simp at hmid
            · rw [if_neg hemp] at hmid
              rcases List.mem_cons.mp hmid with rfl | hmid2
              · refine process_row_length _ _ c ?_ ?_
                · rw [hWlen]
                  exact hlabrow (Bool.not_eq_true _ ▸ Bool.of_not_eq_true hemp)
                · intro i hi
                  refine columnWidths_ge_label rows n ?_ i (hWlen ▸ hi)
                  simpa [List.isEmpty_iff] using hemp
              · rw [List.mem_singleton.mp hmid2]
                exact rule_line_length "├" "┼" "┤" _ rfl rfl rfl
        · obtain ⟨row, hrow, rfl⟩ := List.mem_map.mp hdata
          exact hrowlen row hrow
      · rw [List.mem_singleton.mp hbot]
        exact rule_line_length "└" "┴" "┘" _ rfl rfl rfl
    intro l1 hl1 l2 hl2
    rw [hK l1 hl1, hK l2 hl2]

/-- C6 counterexample: the claim as stated is false.  With
`rows = [["A"]]` (column count 1) and the supplied label list `[]`
(length 0, which differs from the column count), `make_table` does not
fail: `labels or []` on line 40 treats the empty label list as absent and
the table renders normally. -/
theorem C6_cex_empty_labels_no_failure :
    make_table [["A"]] (some []) false = some "┌───┐\n│ A │\n└───┘" ∧
      ([] : List String).length ≠ (["A"] : List String).length := by
  constructor
  · decide
  · decide

/-- C6 (amended): if the rows are ragged, or a NON-EMPTY supplied label
list has length different from the rows' common column count, `make_table`
fails (returns `none`) before producing any output. -/
theorem C6_shape_error (rows : List (List String)) (labels : Option (List String))
    (c : Bool)
    (h : Ragged rows ∨
      (∃ ls n, labels = some ls ∧ ls ≠ [] ∧ rows ≠ [] ∧
        (∀ r ∈ rows, r.length = n) ∧ ls.length ≠ n)) :
    make_table rows labels c = none := by
  rcases h with ⟨r1, hr1, r2, hr2, hne12⟩ | ⟨ls, n, hls, hlsne, hrne, hlen, hmis⟩
  · have hguard : ¬((rows.map List.length).dedup.length = 1) := by
      intro hone
      exact hne12 (all_eq_of_dedup_length_one hone _ (List.mem_map_of_mem List.length hr1)
        _ (List.mem_map_of_mem List.length hr2))
    simp [make_table, guard, hguard]
  · have hall : ∀ x ∈ rows.map List.length, x = n := by
      intro x hx; obtain ⟨r, hr, rfl⟩ := List.mem_map.mp hx; exact hlen r hr
    have hmapne : rows.map List.length ≠ [] := by simpa using hrne
    have hdedup : (rows.map List.length).dedup = [n] := dedup_eq_single hmapne hall
    have hlast : (rows.map List.length).getLast? = some n :=
      getLast?_eq_some_of_all_eq hmapne hall
    subst hls
    simp [make_table, hdedup, hlast, guard, hlsne, Ne.symm hmis]

/-- C7: with an empty rows list the uniform-length assertion on line 37
fails (`set()` has zero elements, not one), so `make_table` fails fast and
returns no table, whatever the labels and centering flag. -/
theorem C7_empty_rows_fails (labels : Option (List String)) (c : Bool) :
    make_table [] labels c = none := rfl

/-- C8: during a valid render, the `pad` computed on line 64 —
`column_width + 2 - len(column_text)` with `column_text` the space-wrapped
cell — is non-negative for every `pad_column` call: for every data cell of
every row and, when labels are present, for the label cell, because the
column width is the maximum over the whole column including this entry. -/
theorem C8_pad_nonneg (rows : List (List String)) (labels : Option (List String))
    (n : Nat) (_h : ValidInput rows labels n) (i : Nat) (hi : i < n) :
    (∀ row ∈ rows,
        0 ≤ ((columnWidths rows (labels.getD []) n).getD i 0 : Int) + 2 -
          (((" " ++ row.getD i "" ++ " ").length : Nat) : Int)) ∧
    (∀ ls, labels = some ls → ls ≠ [] →
        0 ≤ ((columnWidths rows (labels.getD []) n).getD i 0 : Int) + 2 -
          (((" " ++ ls.getD i "" ++ " ").length : Nat) : Int)) := by
  constructor
  · intro row hrow
    have hb := columnWidths_ge_cell rows (labels.getD []) n hrow i hi
    rw [column_text_length]
    omega
  · intro ls hls hlsne
    have hgetD : labels.getD [] = ls := by rw [hls]; rfl
    have hb := columnWidths_ge_label rows n hlsne i hi
    rw [column_text_length, hgetD]
    omega

/-- C9: an empty label list is treated exactly like absent labels: the
walrus `labels := labels or []` on line 40 maps both to `[]`, so the
length assertion is skipped and the rendered table has no label row and
no header rule.  On a valid table with at least one column the render
succeeds with exactly top rule, data rows, bottom rule. -/
theorem C9_empty_labels_as_absent (rows : List (List String)) (c : Bool) (n : Nat)
    (h : ValidInput rows none n) (_hn : 1 ≤ n) :
    make_table rows (some []) c = make_table rows none c ∧
    make_table rows (some []) c =
      some (joinSep "\n"
        (["┌" ++ joinSep "┬" ((columnWidths rows [] n).map fun w => hfill (w + 2)) ++ "┐"]
          ++ rows.map (fun row => process_row row (columnWidths rows [] n) c)
          ++ ["└" ++ joinSep "┴" ((columnWidths rows [] n).map fun w => hfill (w + 2)) ++ "┘"])) := by
  have hvalid : ValidInput rows (some []) n :=
    ⟨h.1, h.2.1, fun ls hls hlsne => absurd (by injection hls) (by simpa using hlsne)⟩
  have hmain := make_table_eq_of_valid rows (some []) c n hvalid
  have heq : make_table rows (some []) c = make_table rows none c := rfl
  refine ⟨heq, ?_⟩
  simpa using hmain

/-- C10: the `N ≥ 1` precondition is not enforced.  For a non-empty rows
list of all-empty rows the assertion sees the single length 0 and passes;
the width list is empty, rule lines are the two bare corner glyphs, and
each data line is two adjacent vertical bars. -/
theorem C10_zero_columns (rows : List (List String)) (c : Bool)
    (h1 : rows ≠ []) (h2 : ∀ r ∈ rows, r = ([] : List String)) :
    make_table rows none c =
      some (joinSep "\n" (["┌┐"] ++ rows.map (fun _ => "││") ++ ["└┘"])) := by
  have hvalid : ValidInput rows none 0 :=
    ⟨h1, fun r hr => by rw [h2 r hr]; rfl, fun ls hls => by cases hls⟩
  have hmain := make_table_eq_of_valid rows none c 0 hvalid
  simp only [Option.getD_none] at hmain
  have hrow : rows.map (fun row => process_row row (columnWidths rows [] 0) c) =
      rows.map (fun _ => "││") := by
    apply List.map_congr_left
    intro r hr
    rw [h2 r hr]
    rfl
  rw [hrow] at hmain
  exact hmain.trans (by rfl)

/-! ### Witnesses: each theorem above that carries hypotheses is
instantiated at a concrete input with every hypothesis discharged. -/

/-- Witness for C1 at rows `[["Lemon"], ["Sebastiaan"]]`, no labels. -/
theorem C1_witness :
    ValidInput [["Lemon"], ["Sebastiaan"]] none 1 ∧
      ((∀ row ∈ [["Lemon"], ["Sebastiaan"]],
          (row.getD 0 "").length + 2 ≤
            (columnWidths [["Lemon"], ["Sebastiaan"]] [] 1).getD 0 0 + 2) ∧
        (∀ ls, (none : Option (List String)) = some ls → ls ≠ [] →
          (ls.getD 0 "").length + 2 ≤
            (columnWidths [["Lemon"], ["Sebastiaan"]] [] 1).getD 0 0 + 2) ∧
        ((∃ row ∈ [["Lemon"], ["Sebastiaan"]],
            (row.getD 0 "").length + 2 =
              (columnWidths [["Lemon"], ["Sebastiaan"]] [] 1).getD 0 0 + 2) ∨
          (∃ ls, (none : Option (List String)) = some ls ∧ ls ≠ [] ∧
            (ls.getD 0 "").length + 2 =
              (columnWidths [["Lemon"], ["Sebastiaan"]] [] 1).getD 0 0 + 2))) := by
  have hv : ValidInput [["Lemon"], ["Sebastiaan"]] none 1 :=
    ⟨by decide, by decide, fun ls hls => Option.noConfusion hls⟩
  exact ⟨hv,
    C1_column_width_bound_attained [["Lemon"], ["Sebastiaan"]] none 1 hv 0 (by decide)⟩

/-- Witness for C2: a one-column table with a label renders as label row,
header rule, data rows, between top and bottom rules. -/
theorem C2_witness :
    make_table [["A"], ["BB"]] (some ["L"]) false =
      some "┌────┐\n│ L  │\n├────┤\n│ A  │\n│ BB │\n└────┘" := by
  have hv : ValidInput [["A"], ["BB"]] (some ["L"]) 1 :=
    ⟨by decide, by decide, fun ls hls _ => by cases hls; decide⟩
  exact ((C2_line_order [["A"], ["BB"]] (some ["L"]) false 1 hv).1 ["L"] rfl
    (by decide)).trans (by decide)

/-- Witness for C3 at a concrete two-row table. -/
theorem C3_witness :
    ∃ L, make_table [["A"], ["BB"]] none false = some (joinSep "\n" L) ∧ L ≠ [] ∧
      (∀ l ∈ L, '\n' ∉ l.data) ∧
      (∀ l1 ∈ L, ∀ l2 ∈ L, l1.length = l2.length) :=
  C3_rectangularity [["A"], ["BB"]] none false 1
    ⟨by decide, by decide, fun ls hls => Option.noConfusion hls⟩
    (by decide) (fun ls hls => Option.noConfusion hls)

/-- Witness for C5: pad 7 splits as 3 left, 4 right. -/
theorem C5_witness :
    ("12" : String).length ≤ 9 ∧
      (pad_column "12" 9 true =
        spaces ((9 - ("12" : String).length) / 2) ++ (" " ++ "12" ++ " ") ++
          spaces ((9 - ("12" : String).length) - (9 - ("12" : String).length) / 2) ∧
      ((9 - ("12" : String).length) - (9 - ("12" : String).length) / 2) -
          (9 - ("12" : String).length) / 2 ≤ 1 ∧
      ((9 - ("12" : String).length) / 2 <
          (9 - ("12" : String).length) - (9 - ("12" : String).length) / 2 ↔
        (9 - ("12" : String).length) % 2 = 1)) :=
  ⟨by decide, C5_centered_split "12" 9 (by decide)⟩

/-- Witness for the amended C6: a ragged table fails. -/
theorem C6_witness :
    Ragged [["A", "B"], ["C"]] ∧ make_table [["A", "B"], ["C"]] none false = none :=
  ⟨⟨["A", "B"], by decide, ["C"], by decide, by decide⟩,
    C6_shape_error [["A", "B"], ["C"]] none false
      (Or.inl ⟨["A", "B"], by decide, ["C"], by decide, by decide⟩)⟩

/-- Witness for C8 at a concrete table. -/
theorem C8_witness :
    ValidInput [["A"], ["BB"]] none 1 ∧
      ((∀ row ∈ [["A"], ["BB"]],
          0 ≤ ((columnWidths [["A"], ["BB"]] [] 1).getD 0 0 : Int) + 2 -
            (((" " ++ row.getD 0 "" ++ " ").length : Nat) : Int)) ∧
        (∀ ls, (none : Option (List String)) = some ls → ls ≠ [] →
          0 ≤ ((columnWidths [["A"], ["BB"]] [] 1).getD 0 0 : Int) + 2 -
            (((" " ++ ls.getD 0 "" ++ " ").length : Nat) : Int))) := by
  have hv : ValidInput [["A"], ["BB"]] none 1 :=
    ⟨by decide, by decide, fun ls hls => Option.noConfusion hls⟩
  exact ⟨hv, C8_pad_nonneg [["A"], ["BB"]] none 1 hv 0 (by decide)⟩

/-- Witness for C9: empty label list behaves as no labels. -/
theorem C9_witness :
    make_table [["A"], ["BB"]] (some []) false = make_table [["A"], ["BB"]] none false ∧
      make_table [["A"], ["BB"]] (some []) false =
        some "┌────┐\n│ A  │\n│ BB │\n└────┘" := by
  have hv : ValidInput [["A"], ["BB"]] none 1 :=
    ⟨by decide, by decide, fun ls hls => Option.noConfusion hls⟩
  have h9 := C9_empty_labels_as_absent [["A"], ["BB"]] false 1 hv (by decide)
  exact ⟨h9.1, h9.2.trans (by decide)⟩

/-- Witness for C10: two zero-length rows produce the degenerate table. -/
theorem C10_witness :
    make_table [[], []] none false = some "┌┐\n││\n││\n└┘" :=
  (C10_zero_columns [[], []] false (by decide) (by decide)).trans (by decide)

example : make_table [["Lemon"], ["Sebastiaan"]] none false =
    some "┌────────────┐\n│ Lemon      │\n│ Sebastiaan │\n└────────────┘" := by
  decide

example : make_table [["Ducky Yellow", "3"], ["Ducky Dave", "12"]]
    (some ["Name", "Duckiness"]) true =
    some ("┌──────────────┬───────────┐\n│     Name     │ Duckiness │\n" ++
      "├──────────────┼───────────┤\n│ Ducky Yellow │     3     │\n" ++
      "│  Ducky Dave  │    12     │\n└──────────────┴───────────┘") := by
  decide

example : make_table [["A", "B"], ["C"]] none false = none := by decide

example : make_table [] (some ["x"]) true = none := by decide

example : make_table [[], []] none false = some "┌┐\n││\n││\n└┘" := by decide

end Qualifier
